import Mathlib

/-!
A shallow embedding of `viterbi.py`: a Viterbi-style sequence aligner that
keeps every surviving path into every cell of an `(|A|+1) × (|B|+1)` grid.

Modelling conventions:

* Python floats are modelled by `ℚ`.  The module constant `LOG_SCALED` is
  `True` in the source, so the default configuration is the log mode with
  `DEFAULT_GOOD_SCORE = log 1 = 0`, `DEFAULT_BAD_SCORE = log 0.5`, and
  score combination by addition.  `log 0.5` is irrational; it is modelled
  by a parameter `badLog : ℚ` of `logMode` (the theorems that depend on
  its value only use `badLog < 0`, which holds for `log 0.5`).
* A Python `ViterbiCell` object stores its coordinates, its two sequence
  elements and a mutable list `paths`.  The immutable part is the
  structure `ViterbiCell` below; the mutable `paths` lists of the whole
  grid are modelled as an explicit state `PathState` mapping each
  coordinate to the list of paths currently ending there, in append
  order.
* A `ViterbiPath` stores references to the cells it traverses; a grid
  cell is determined by its coordinates, so a path is modelled as the
  list of the coordinates of its cells together with its score.
* The two-level `alignment_scores` dictionary is modelled as a function
  returning `Option ℚ`; `none` models a `KeyError` (outer or inner key
  missing), which the sweep answers by skipping the move.
-/

namespace Viterbi

/-- One scoring configuration: the default good and bad move scores and
the score combination operator.  Models the module constants
`DEFAULT_GOOD_SCORE`, `DEFAULT_BAD_SCORE` and
`DEFAULT_SCORE_COMBINATION` of `viterbi.py`. -/
structure ScoreMode where
  good : ℚ
  bad : ℚ
  comb : ℚ → ℚ → ℚ

/-- The log-scaled mode (`LOG_SCALED = True`, the source's frozen
setting): good is `log 1 = 0`, bad is `log 0.5` (modelled by the
parameter `badLog`), and scores combine by addition. -/
def logMode (badLog : ℚ) : ScoreMode := ⟨0, badLog, fun x y => x + y⟩

/-- The linear mode (`LOG_SCALED = False`): good is `1`, bad is `0.5`,
and scores combine by multiplication. -/
def linearMode : ScoreMode := ⟨1, 1 / 2, fun x y => x * y⟩

/-- The element of sequence `a` consumed at row `i`: `a[i]`, or `None` on
`IndexError` (see `ViterbiCell.__init__`). -/
def aElem {α : Type} (a : List α) (i : ℕ) : Option α := a[i]?

/-- The element of sequence `b` consumed at column `j`: `b[j]`, or `None`
on `IndexError`. -/
def bElem {α : Type} (b : List α) (j : ℕ) : Option α := b[j]?

/-- The immutable part of a `ViterbiCell`: its grid position and the
current element of each sequence (`none` past the end of the
sequence). -/
structure ViterbiCell (α : Type) where
  row_idx : ℕ
  col_idx : ℕ
  a_element : Option α
  b_element : Option α
deriving DecidableEq

/-- Models `ViterbiCell.__init__` for position `(i, j)` of the grid over
sequences `a` and `b`. -/
def mkCell {α : Type} (a b : List α) (i j : ℕ) : ViterbiCell α :=
  ⟨i, j, aElem a i, bElem b j⟩

/-- Models `ViterbiAligner.initialize_grid` (name shortened): the dense
row-major grid with `a.length + 1` rows and `b.length + 1` columns. -/
def init_grid {α : Type} (a b : List α) : List (List (ViterbiCell α)) :=
  (List.range (a.length + 1)).map fun i =>
    (List.range (b.length + 1)).map fun j => mkCell a b i j

/-- Models `ViterbiPath`: the cells the path passes through, as
coordinates, and its cumulative score. -/
structure ViterbiPath where
  cells : List (ℕ × ℕ)
  score : ℚ
deriving DecidableEq

/-- Models `ViterbiPath.get_score`. -/
def ViterbiPath.get_score (p : ViterbiPath) : ℚ := p.score

/-- Models `ViterbiPath.get_coordinates`: the coordinates of the cells of
the path, in order. -/
def ViterbiPath.get_coordinates (p : ViterbiPath) : List (ℕ × ℕ) := p.cells

/-- The pair recorded by `ViterbiPath.get_elements` for the transition
between consecutive cells `c` and `c'`: the A element of `c` if the row
changed (else `none`), and the B element of `c` if the column changed
(else `none`). -/
def transitionElem {α : Type} (a b : List α) (c c' : ℕ × ℕ) : Option α × Option α :=
  ((if c.1 ≠ c'.1 then aElem a c.1 else none),
   (if c.2 ≠ c'.2 then bElem b c.2 else none))

/-- Models `ViterbiPath.get_elements`: one element pair per transition
between consecutive cells of the path. -/
def get_elements {α : Type} (a b : List α) (p : ViterbiPath) : List (Option α × Option α) :=
  (p.cells.zip p.cells.tail).map fun cc => transitionElem a b cc.1 cc.2

/-- The comparator used by the sort in `ViterbiCell.get_best_paths`:
ascending scores when scores are costs, descending otherwise
(`reverse=True`). -/
def pathLe (costs : Bool) (x y : ViterbiPath) : Bool :=
  if costs then decide (x.score ≤ y.score) else decide (y.score ≤ x.score)

/-- The value of `cell.paths` after the in-place stable sort performed by
`ViterbiCell.get_best_paths`.  Python's `list.sort` is stable and so is
`List.mergeSort`, and a stable sort's output is determined by the
comparator, so the resulting order is the source's. -/
def sortPaths (costs : Bool) (paths : List ViterbiPath) : List ViterbiPath :=
  paths.mergeSort (pathLe costs)

/-- Models the return value of `ViterbiCell.get_best_paths`: the empty
list when there are no paths; otherwise the paths are sorted by score
and the longest prefix sharing the first element's score is returned. -/
def get_best_paths (costs : Bool) (paths : List ViterbiPath) : List ViterbiPath :=
  match sortPaths costs paths with
  | [] => []
  | p0 :: rest => (p0 :: rest).takeWhile fun p => p.score == p0.score

/-- The value of `cell.paths` after one call of
`ViterbiCell.get_best_paths`: unchanged when empty (the source returns
early), otherwise sorted in place. -/
def bestPathsEffect (costs : Bool) (paths : List ViterbiPath) : List ViterbiPath :=
  if paths.isEmpty then paths else sortPaths costs paths

/-- The mutable path lists of the whole grid: for each coordinate, the
list of paths currently ending at the cell there, in append order. -/
def PathState : Type := ℕ × ℕ → List ViterbiPath

/-- The three forward moves attempted from each cell, in the order of the
list `[delete_cell, diag_cell, insert_cell]` in `ViterbiAligner.align`. -/
inductive Move where
  | delete : Move
  | diag : Move
  | insert : Move

/-- Models the neighbor-cell computation of `ViterbiAligner.align`: the
coordinate a move from `(i, j)` leads to, or `none` on `IndexError`
(the grid has `a.length + 1` rows and `b.length + 1` columns). -/
def targetOf {α : Type} (a b : List α) (m : Move) (i j : ℕ) : Option (ℕ × ℕ) :=
  match m with
  | Move.delete => if i + 1 < a.length + 1 then some (i + 1, j) else none
  | Move.diag =>
      if i + 1 < a.length + 1 ∧ j + 1 < b.length + 1 then some (i + 1, j + 1) else none
  | Move.insert => if j + 1 < b.length + 1 then some (i, j + 1) else none

/-- The `(a_next_element, b_next_element)` pair `ViterbiAligner.align`
computes for a move out of the cell at `(i, j)`: the diagonal consumes
both elements, a deletion only the A element, an insertion only the B
element. -/
def moveKeys {α : Type} (a b : List α) (m : Move) (i j : ℕ) : Option α × Option α :=
  match m with
  | Move.delete => (aElem a i, none)
  | Move.diag => (aElem a i, bElem b j)
  | Move.insert => (none, bElem b j)

/-- Models the two-level `alignment_scores` dictionary: looking up the
`(A-key, B-key)` pair returns `none` exactly when the source raises
`KeyError` (outer or inner key missing). -/
def ScoreTable (α : Type) : Type := Option α → Option α → Option ℚ

/-- The score of one move, or `none` when the move is skipped: without a
table, `DEFAULT_GOOD_SCORE` for the diagonal and `DEFAULT_BAD_SCORE`
otherwise; with a table, the looked-up value, the extension being
abandoned (`continue`) on a missing key. -/
def moveScore {α : Type} (mode : ScoreMode) (asc : Option (ScoreTable α)) (a b : List α)
    (m : Move) (i j : ℕ) : Option ℚ :=
  match asc with
  | none => some (match m with | Move.diag => mode.good | _ => mode.bad)
  | some t => t (moveKeys a b m i j).1 (moveKeys a b m i j).2

/-- One iteration of the innermost loop of `ViterbiAligner.align`: try to
extend path `p`, which ends at `(i, j)`, by move `m`; on success, append
the extended path (with combined score) to the target cell's list. -/
def applyMove {α : Type} (mode : ScoreMode) (asc : Option (ScoreTable α)) (a b : List α)
    (i j : ℕ) (p : ViterbiPath) (st : PathState) (m : Move) : PathState :=
  match targetOf a b m i j with
  | none => st
  | some tgt =>
      match moveScore mode asc a b m i j with
      | none => st
      | some s => fun rc =>
          if rc = tgt then st rc ++ [⟨p.cells ++ [tgt], mode.comb p.score s⟩]
          else st rc

/-- The processing of one cell by the sweep: every path currently ending
at `rc` attempts the three forward moves, in order. -/
def stepCell {α : Type} (mode : ScoreMode) (asc : Option (ScoreTable α)) (a b : List α)
    (st : PathState) (rc : ℕ × ℕ) : PathState :=
  (st rc).foldl
    (fun s p =>
      [Move.delete, Move.diag, Move.insert].foldl (applyMove mode asc a b rc.1 rc.2 p) s)
    st

/-- The row-major visiting order of the sweep: rows ascending, then
columns ascending within each row. -/
def rowMajor (nrows ncols : ℕ) : List (ℕ × ℕ) :=
  (List.range nrows).flatMap fun i => (List.range ncols).map fun j => (i, j)

/-- The state before the sweep: the origin cell is seeded with one path
containing only itself, with score `DEFAULT_GOOD_SCORE` (the identity of
the configured mode). -/
def startState (mode : ScoreMode) : PathState :=
  fun rc => if rc = (0, 0) then [⟨[(0, 0)], mode.good⟩] else []

/-- Models `ViterbiAligner.align`: seed the origin, then sweep the grid
in row-major order. -/
def align {α : Type} (mode : ScoreMode) (asc : Option (ScoreTable α)) (a b : List α) :
    PathState :=
  (rowMajor (a.length + 1) (b.length + 1)).foldl (stepCell mode asc a b) (startState mode)

/-- The coordinate of the terminal cell `grid[-1][-1]`. -/
def lastCell {α : Type} (a b : List α) : ℕ × ℕ := (a.length, b.length)

/-- Models `ViterbiAligner.get_all_paths`. -/
def aligner_all_paths {α : Type} (mode : ScoreMode) (asc : Option (ScoreTable α))
    (a b : List α) : List ViterbiPath :=
  align mode asc a b (lastCell a b)

/-- Models `ViterbiAligner.get_best_paths`. -/
def aligner_best_paths {α : Type} (mode : ScoreMode) (asc : Option (ScoreTable α))
    (a b : List α) (costs : Bool) : List ViterbiPath :=
  get_best_paths costs (align mode asc a b (lastCell a b))

/-- The three legal coordinate deltas of one move: down (a deletion),
diagonal, right (an insertion). -/
def stepOk (c c' : ℕ × ℕ) : Prop :=
  (c'.1 = c.1 + 1 ∧ c'.2 = c.2) ∨ (c'.1 = c.1 + 1 ∧ c'.2 = c.2 + 1) ∨
    (c'.1 = c.1 ∧ c'.2 = c.2 + 1)

instance : DecidableRel stepOk := fun c c' => by unfold stepOk; infer_instance

/-- Well-formedness of a path stored at cell `rc` of the grid over `a`
and `b`: nonempty, starts at the origin, ends at `rc`, takes only legal
moves, and `rc` lies inside the grid. -/
def WF {α : Type} (a b : List α) (p : ViterbiPath) (rc : ℕ × ℕ) : Prop :=
  p.cells ≠ [] ∧ p.cells.head? = some (0, 0) ∧ p.cells.getLast? = some rc ∧
    List.Chain' stepOk p.cells ∧ rc.1 ≤ a.length ∧ rc.2 ≤ b.length

/-- The sweep invariant: every stored path is well-formed for the cell
that stores it. -/
def Inv {α : Type} (a b : List α) (st : PathState) : Prop :=
  ∀ rc p, p ∈ st rc → WF a b p rc

/-- The number of indel (non-diagonal) transitions of a coordinate
sequence: those leaving the row or the column unchanged. -/
def indelCount (L : List (ℕ × ℕ)) : ℕ :=
  (L.zip L.tail).countP fun cc => decide (cc.1.1 = cc.2.1) || decide (cc.1.2 = cc.2.2)

/-- The relation between two sweep states asserting pointwise equal cell
sequences at every grid coordinate. -/
def CellsRel (st st' : PathState) : Prop :=
  ∀ rc, List.Forall₂ (fun p p' => p.cells = p'.cells) (st rc) (st' rc)

/-- A concrete scoring table used to exhibit the in-place sort performed
by `get_best_paths`: the diagonal move scores 1, both indel moves score
5, every other pair is missing. -/
def c2Table : ScoreTable Char := fun x y =>
  if x = some 'a' ∧ y = some 'a' then some 1
  else if x = some 'a' ∧ y = none then some 5
  else if x = none ∧ y = some 'a' then some 5
  else none

/-- The scoring table of the C5 pruning scenario: only the pair
`("a", "a")` is defined, so no indel move is ever legal. -/
def c5Table : ScoreTable Char := fun x y =>
  if x = some 'a' ∧ y = some 'a' then some 1 else none

/-! ### Helper lemmas -/

/-- The `a_element` stored by a cell in row `i`: the `i`-th element of `a`
below the length, the null sentinel at the extra final row. -/
theorem aElem_eq {α : Type} (a : List α) (i : ℕ) :
    aElem a i = if h : i < a.length then some (a.get ⟨i, h⟩) else none := by
  unfold aElem
  split
  · exact List.getElem?_eq_getElem (by assumption)
  · exact List.getElem?_eq_none (by omega)

/-- The `b_element` stored by a cell in column `j`. -/
theorem bElem_eq {α : Type} (b : List α) (j : ℕ) :
    bElem b j = if h : j < b.length then some (b.get ⟨j, h⟩) else none := by
  unfold bElem
  split
  · exact List.getElem?_eq_getElem (by assumption)
  · exact List.getElem?_eq_none (by omega)

/-- The entry of the transition list of `get_elements` at index `i`, in
terms of the cells at indices `i` and `i + 1`. -/
theorem elems_entry {α : Type} (a b : List α) (L : List (ℕ × ℕ)) :
    ∀ (i : ℕ) (ci ci' : ℕ × ℕ), L[i]? = some ci → L[i + 1]? = some ci' →
      ((L.zip L.tail).map fun cc => transitionElem a b cc.1 cc.2)[i]? =
        some (transitionElem a b ci ci') := by
  induction L with
  | nil => intro i ci ci' h1 h2; simp at h1
  | cons x t ih =>
    intro i ci ci' h1 h2
    cases t with
    | nil =>
      cases i with
      | zero => simp at h2
      | succ k => simp at h2
    | cons y t' =>
      cases i with
      | zero =>
        simp only [List.getElem?_cons_succ, List.getElem?_cons_zero, Option.some.injEq] at h1 h2
        subst h1; subst h2
        simp
      | succ k =>
        have h1' : (y :: t')[k]? = some ci := by simpa using h1
        have h2' : (y :: t')[k + 1]? = some ci' := by simpa using h2
        simpa using ih k ci ci' h1' h2'

end Viterbi

namespace Viterbi

/-! ### Claim theorems -/

/-- C6: `initialize_grid` builds a grid of exactly `(n+1) × (m+1)` cells,
and the cell at `(i, j)` carries `a_element = A[i]` when `i < n`, the
null sentinel when `i = n`, and likewise for `b_element` with `B` and
`m`. -/
theorem C6_grid_shape {α : Type} (a b : List α) (i j : ℕ)
    (hi : i ≤ a.length) (hj : j ≤ b.length) :
    (init_grid a b).length = a.length + 1 ∧
    (∀ row ∈ init_grid a b, row.length = b.length + 1) ∧
    ((init_grid a b)[i]?.bind fun row => row[j]?) =
      some ⟨i, j,
        (if h : i < a.length then some (a.get ⟨i, h⟩) else none),
        (if h : j < b.length then some (b.get ⟨j, h⟩) else none)⟩ := by
  refine ⟨by simp [init_grid], ?_, ?_⟩
  · intro row hrow
    simp only [init_grid, List.mem_map, List.mem_range] at hrow
    obtain ⟨k, _, rfl⟩ := hrow
    simp
  · have h1 : i < a.length + 1 := by omega
    have h2 : j < b.length + 1 := by omega
    simp only [init_grid, List.getElem?_map, List.getElem?_range h1, List.getElem?_range h2,
      Option.map_some', Option.some_bind, mkCell]
    rw [aElem_eq, bElem_eq]

/-- C6 witness: the grid for `A = "a"`, `B = ""` evaluated at the cell
`(1, 0)`. -/
theorem C6_grid_shape_witness :
    ((init_grid ['a'] ([] : List Char))[1]?.bind fun row => row[0]?) =
      some ⟨1, 0, none, none⟩ :=
  (C6_grid_shape ['a'] [] 1 0 (by decide) (by decide)).2.2

/-- C4: for every path, `get_elements` has one entry per transition
(`length = coordinates length - 1`), and the entry for the transition
from cell `i` to cell `i + 1` is the A element of cell `i` if the row
changed (else null) paired with the B element of cell `i` if the column
changed (else null). -/
theorem C4_alignment_entries {α : Type} (a b : List α) (p : ViterbiPath) :
    (get_elements a b p).length = p.get_coordinates.length - 1 ∧
    ∀ (i : ℕ) (ci ci' : ℕ × ℕ), p.cells[i]? = some ci → p.cells[i + 1]? = some ci' →
      (get_elements a b p)[i]? =
        some ((if ci.1 ≠ ci'.1 then aElem a ci.1 else none),
              (if ci.2 ≠ ci'.2 then bElem b ci.2 else none)) := by
  constructor
  · simp only [get_elements, ViterbiPath.get_coordinates, List.length_map, List.length_zip,
      List.length_tail]
    omega
  · intro i ci ci' h1 h2
    have h := elems_entry a b p.cells i ci ci' h1 h2
    simp only [get_elements]
    rw [h]
    rfl

/-- C4 witness: the diagonal-then-deletion path on `A = "ab"`,
`B = "a"`. -/
theorem C4_alignment_entries_witness :
    (get_elements ['a', 'b'] ['a'] ⟨[(0, 0), (1, 1), (2, 1)], 0⟩).length = 2 ∧
    (get_elements ['a', 'b'] ['a'] ⟨[(0, 0), (1, 1), (2, 1)], 0⟩)[0]? =
      some (some 'a', some 'a') := by
  refine ⟨(C4_alignment_entries ['a', 'b'] ['a'] ⟨[(0, 0), (1, 1), (2, 1)], 0⟩).1, ?_⟩
  have := (C4_alignment_entries ['a', 'b'] ['a'] ⟨[(0, 0), (1, 1), (2, 1)], 0⟩).2 0
    (0, 0) (1, 1) (by decide) (by decide)
  simpa using this

/-- C8: aligning the empty sequence with the empty sequence yields
exactly the seeded origin path, whose score is the identity of the
configured mode: `0` (that is, `log 1`) in log mode and `1` in linear
mode. -/
theorem C8_empty_inputs {α : Type} (badLog : ℚ) (asc : Option (ScoreTable α)) :
    aligner_all_paths (logMode badLog) asc [] [] = [⟨[(0, 0)], 0⟩] ∧
    aligner_all_paths linearMode asc [] [] = [⟨[(0, 0)], 1⟩] :=
  ⟨rfl, rfl⟩

/-- C9: the sweep is deterministic: two runs on equal inputs produce, at
every cell, path lists of equal length whose corresponding paths have
identical coordinates, identical alignments and identical scores. -/
theorem C9_deterministic {α : Type} (m₁ m₂ : ScoreMode) (asc₁ asc₂ : Option (ScoreTable α))
    (a₁ a₂ b₁ b₂ : List α) (hm : m₁ = m₂) (hasc : asc₁ = asc₂) (ha : a₁ = a₂)
    (hb : b₁ = b₂) (rc : ℕ × ℕ) :
    (align m₁ asc₁ a₁ b₁ rc).length = (align m₂ asc₂ a₂ b₂ rc).length ∧
    ∀ k : ℕ,
      (align m₁ asc₁ a₁ b₁ rc)[k]?.map ViterbiPath.get_coordinates =
        (align m₂ asc₂ a₂ b₂ rc)[k]?.map ViterbiPath.get_coordinates ∧
      (align m₁ asc₁ a₁ b₁ rc)[k]?.map (get_elements a₁ b₁) =
        (align m₂ asc₂ a₂ b₂ rc)[k]?.map (get_elements a₂ b₂) ∧
      (align m₁ asc₁ a₁ b₁ rc)[k]?.map ViterbiPath.get_score =
        (align m₂ asc₂ a₂ b₂ rc)[k]?.map ViterbiPath.get_score := by
  subst hm; subst hasc; subst ha; subst hb
  exact ⟨rfl, fun k => ⟨rfl, rfl, rfl⟩⟩

/-- C9 witness: two runs on the same one-letter inputs agree at the
terminal cell. -/
theorem C9_deterministic_witness :
    (align (logMode (-1)) (none : Option (ScoreTable Char)) ['a'] ['a'] (1, 1)).length =
      (align (logMode (-1)) (none : Option (ScoreTable Char)) ['a'] ['a'] (1, 1)).length :=
  (C9_deterministic (logMode (-1)) (logMode (-1)) none none ['a'] ['a'] ['a'] ['a']
    rfl rfl rfl rfl (1, 1)).1

/-! ### The best-path selection -/

/-- Reads the Boolean comparator as a proposition. -/
theorem pathLe_iff (costs : Bool) (x y : ViterbiPath) :
    pathLe costs x y = true ↔
      (if costs = true then x.score ≤ y.score else y.score ≤ x.score) := by
  cases costs <;> simp [pathLe]

/-- The comparator of the sort is transitive. -/
theorem pathLe_trans (costs : Bool) (x y z : ViterbiPath)
    (h1 : pathLe costs x y = true) (h2 : pathLe costs y z = true) :
    pathLe costs x z = true := by
  cases costs <;> simp [pathLe] at h1 h2 ⊢ <;> linarith

/-- The comparator of the sort is total. -/
theorem pathLe_total (costs : Bool) (x y : ViterbiPath) :
    (pathLe costs x y || pathLe costs y x) = true := by
  cases costs <;> simp [pathLe] <;> exact le_total _ _

/-- Two paths each at least as good as the other have equal scores. -/
theorem pathLe_antisymm (costs : Bool) (x y : ViterbiPath)
    (h1 : pathLe costs x y = true) (h2 : pathLe costs y x = true) : x.score = y.score := by
  cases costs <;> simp [pathLe] at h1 h2 <;> linarith

/-- The sort is a permutation of the cell's path list. -/
theorem sortPaths_perm (costs : Bool) (paths : List ViterbiPath) :
    (sortPaths costs paths).Perm paths :=
  List.mergeSort_perm paths (pathLe costs)

/-- The sorted path list is sorted under the comparator. -/
theorem sortPaths_sorted (costs : Bool) (paths : List ViterbiPath) :
    List.Pairwise (fun x y => pathLe costs x y = true) (sortPaths costs paths) :=
  List.sorted_mergeSort (pathLe_trans costs) (pathLe_total costs) paths

/-- Sorting an already sorted path list leaves it unchanged. -/
theorem sortPaths_sortPaths (costs : Bool) (paths : List ViterbiPath) :
    sortPaths costs (sortPaths costs paths) = sortPaths costs paths :=
  List.mergeSort_of_sorted (sortPaths_sorted costs paths)

/-- In a sorted path list, a path that is at least as good as every
member lies in the longest constant-score front segment. -/
theorem mem_takeWhile_of_best (costs : Bool) (l : List ViterbiPath) :
    ∀ (p : ViterbiPath) (s0 : ℚ),
      List.Pairwise (fun x y => pathLe costs x y = true) l →
      p ∈ l → (∀ q ∈ l, pathLe costs p q = true) → p.score = s0 →
      p ∈ l.takeWhile fun q => q.score == s0 := by
  induction l with
  | nil => intro p s0 _ hp; simp at hp
  | cons x t ih =>
    intro p s0 hsort hp hbest hs
    obtain ⟨hhead, htail⟩ := List.pairwise_cons.mp hsort
    have hx : x.score = s0 := by
      rcases List.mem_cons.mp hp with rfl | hpt
      · exact hs
      · have h1 : pathLe costs p x = true := hbest x (by simp)
        have h2 : pathLe costs x p = true := hhead p hpt
        rw [pathLe_antisymm costs x p h2 h1]
        exact hs
    rw [List.takeWhile_cons]
    have hpred : (x.score == s0) = true := by simpa using hx
    rw [hpred]
    simp only [if_true]
    rcases List.mem_cons.mp hp with rfl | hpt
    · exact List.mem_cons_self _ _
    · exact List.mem_cons_of_mem x
        (ih p s0 htail hpt (fun q hq => hbest q (List.mem_cons_of_mem x hq)) hs)

/-- Membership in `get_best_paths`: exactly the stored paths whose score
is at least as good as every stored path's. -/
theorem mem_get_best_paths (costs : Bool) (paths : List ViterbiPath) (p : ViterbiPath) :
    p ∈ get_best_paths costs paths ↔
      p ∈ paths ∧ ∀ q ∈ paths, pathLe costs p q = true := by
  cases hs : sortPaths costs paths with
  | nil =>
    have hnil : paths = [] := (hs ▸ sortPaths_perm costs paths).symm.eq_nil
    subst hnil
    simp [get_best_paths, hs]
  | cons p0 rest =>
    have hperm : (p0 :: rest).Perm paths := hs ▸ sortPaths_perm costs paths
    have hsorted : List.Pairwise (fun x y => pathLe costs x y = true) (p0 :: rest) :=
      hs ▸ sortPaths_sorted costs paths
    simp only [get_best_paths, hs]
    constructor
    · intro hmem
      have hpred := List.mem_takeWhile_imp hmem
      have hp : p ∈ p0 :: rest := (List.takeWhile_sublist _).mem hmem
      have hs0 : p.score = p0.score := by simpa using hpred
      refine ⟨hperm.mem_iff.mp hp, ?_⟩
      intro q hq
      have hq' : q ∈ p0 :: rest := hperm.mem_iff.mpr hq
      rcases List.mem_cons.mp hq' with rfl | hq''
      · cases costs <;> simp [pathLe, hs0]
      · have h1 : pathLe costs p0 q = true := (List.pairwise_cons.mp hsorted).1 q hq''
        cases costs <;> simp [pathLe] at h1 ⊢ <;> rw [hs0] <;> exact h1
    · rintro ⟨hp, hbest⟩
      have hp' : p ∈ p0 :: rest := hperm.mem_iff.mpr hp
      have hbest' : ∀ q ∈ p0 :: rest, pathLe costs p q = true := fun q hq =>
        hbest q (hperm.mem_iff.mp hq)
      have hp0p : pathLe costs p0 p = true := by
        rcases List.mem_cons.mp hp' with rfl | h
        · cases costs <;> simp [pathLe]
        · exact (List.pairwise_cons.mp hsorted).1 p h
      have hs0 : p.score = p0.score :=
        pathLe_antisymm costs p p0 (hbest' p0 (List.mem_cons_self _ _)) hp0p
      exact mem_takeWhile_of_best costs (p0 :: rest) p p0.score hsorted hp' hbest' hs0

/-- C1: `get_best_paths` returns exactly the subset of the cell's paths
whose score is extremal — minimal when `scores_are_costs`, maximal
otherwise — keeping every tie and nothing strictly worse, and an empty
path list yields an empty result. -/
theorem C1_best_paths_extremal (costs : Bool) (paths : List ViterbiPath) (p : ViterbiPath) :
    (paths = [] → get_best_paths costs paths = []) ∧
    (p ∈ get_best_paths costs paths ↔
      p ∈ paths ∧ ∀ q ∈ paths,
        (if costs = true then p.score ≤ q.score else q.score ≤ p.score)) := by
  constructor
  · rintro rfl
    simp [get_best_paths, sortPaths]
  · rw [mem_get_best_paths]
    simp only [pathLe_iff]

/-- C1 witness: with costs semantics, the strictly cheaper of two stored
paths is returned. -/
theorem C1_best_paths_extremal_witness :
    ⟨[(0, 0)], 1⟩ ∈ get_best_paths true [⟨[(0, 0)], 2⟩, ⟨[(0, 0)], 1⟩] :=
  (C1_best_paths_extremal true [⟨[(0, 0)], 2⟩, ⟨[(0, 0)], 1⟩] ⟨[(0, 0)], 1⟩).2.mpr
    (by decide)

/-- C2 (amended): `get_all_paths` is a pure read, and `get_best_paths`
returns the same result on repeated calls; but its in-place sort can
reorder the cell's stored path list on the first call, after which the
state is a fixed point of further calls. -/
theorem C2_best_paths_idempotent (costs : Bool) (paths : List ViterbiPath) :
    bestPathsEffect costs (bestPathsEffect costs paths) = bestPathsEffect costs paths ∧
    get_best_paths costs (bestPathsEffect costs paths) = get_best_paths costs paths := by
  by_cases h : paths.isEmpty
  · have : paths = [] := by simpa [List.isEmpty_iff] using h
    subst this
    simp [bestPathsEffect]
  · have hpne : paths ≠ [] := by simpa [List.isEmpty_iff] using h
    have heff : bestPathsEffect costs paths = sortPaths costs paths := by
      simp [bestPathsEffect, h]
    have hne : (sortPaths costs paths).isEmpty = false := by
      cases hq : sortPaths costs paths with
      | nil => exact absurd ((hq ▸ sortPaths_perm costs paths).symm.eq_nil) hpne
      | cons u v => rfl
    constructor
    · rw [heff]
      simp only [bestPathsEffect, hne, Bool.false_eq_true, if_false]
      exact sortPaths_sortPaths costs paths
    · rw [heff]
      unfold get_best_paths
      rw [sortPaths_sortPaths costs paths]

unseal Rat.add List.merge List.mergeSort in
/-- C2 counterexample: on a one-letter alignment under a table that makes
the diagonal path arrive first with the best (highest) score, calling
`get_best_paths` reorders the terminal cell's stored path list, so the
aligner's state is not left unchanged. -/
theorem C2_counterexample_sort_mutates :
    bestPathsEffect false (align (logMode (-1)) (some c2Table) ['a'] ['a'] (1, 1)) ≠
      align (logMode (-1)) (some c2Table) ['a'] ['a'] (1, 1) := by decide

/-! ### The sweep invariant -/

/-- A left fold preserves any invariant its steps preserve. -/
theorem foldl_inv {σ τ : Type} (I : σ → Prop) (f : σ → τ → σ) :
    ∀ (l : List τ) (s : σ), I s → (∀ s' x, x ∈ l → I s' → I (f s' x)) → I (l.foldl f s) := by
  intro l
  induction l with
  | nil => intro s h0 _; exact h0
  | cons x t ih =>
    intro s h0 hstep
    exact ih (f s x) (hstep s x (by simp) h0) fun s' y hy h =>
      hstep s' y (List.mem_cons_of_mem x hy) h

/-- A successful move target is one legal step away and stays inside the
grid. -/
theorem targetOf_spec {α : Type} (a b : List α) (m : Move) (i j : ℕ) (tgt : ℕ × ℕ)
    (h : targetOf a b m i j = some tgt) (hi : i ≤ a.length) (hj : j ≤ b.length) :
    stepOk (i, j) tgt ∧ tgt.1 ≤ a.length ∧ tgt.2 ≤ b.length := by
  cases m <;> simp only [targetOf] at h <;> split at h <;>
    simp only [Option.some.injEq, reduceCtorEq] at h <;> subst h <;>
    simp [stepOk] <;> omega

/-- The inner loop body of the sweep preserves the invariant, given that
the path being extended is well-formed at the cell it leaves. -/
theorem applyMove_inv {α : Type} (mode : ScoreMode) (asc : Option (ScoreTable α))
    (a b : List α) (i j : ℕ) (p : ViterbiPath) (st : PathState) (m : Move)
    (hst : Inv a b st) (hp : WF a b p (i, j)) :
    Inv a b (applyMove mode asc a b i j p st m) := by
  obtain ⟨hne, hhead, hlast, hchain, hi, hj⟩ := hp
  unfold applyMove
  cases htgt : targetOf a b m i j with
  | none => exact hst
  | some tgt =>
    cases hsc : moveScore mode asc a b m i j with
    | none => exact hst
    | some s =>
      obtain ⟨hstep, hti, htj⟩ := targetOf_spec a b m i j tgt htgt hi hj
      intro rc q hq
      dsimp only at hq
      by_cases hrc : rc = tgt
      · rw [if_pos hrc] at hq
        rcases List.mem_append.mp hq with hq1 | hq2
        · exact hst rc q hq1
        · have hq' : q = ⟨p.cells ++ [tgt], mode.comb p.score s⟩ := by simpa using hq2
          subst hq'
          rw [hrc]
          refine ⟨by simp, ?_, ?_, ?_, hti, htj⟩
          · rw [List.head?_append]
            simp [hhead]
          · simp [List.getLast?_concat]
          · refine List.Chain'.append hchain (List.chain'_singleton tgt) ?_
            intro x hx y hy
            rw [hlast] at hx
            simp only [Option.mem_def, Option.some.injEq, List.head?_cons] at hx hy
            subst hx; subst hy
            exact hstep
      · rw [if_neg hrc] at hq
        exact hst rc q hq

/-- The processing of one grid cell preserves the invariant. -/
theorem stepCell_inv {α : Type} (mode : ScoreMode) (asc : Option (ScoreTable α))
    (a b : List α) (st : PathState) (rc : ℕ × ℕ) (hst : Inv a b st) :
    Inv a b (stepCell mode asc a b st rc) := by
  unfold stepCell
  refine foldl_inv (Inv a b) _ (st rc) st hst ?_
  intro s' p hp hs'
  refine foldl_inv (Inv a b) _ [Move.delete, Move.diag, Move.insert] s' hs' ?_
  intro s'' m _ hs''
  exact applyMove_inv mode asc a b rc.1 rc.2 p s'' m hs'' (hst rc p hp)

/-- Every path deposited anywhere by the sweep is well-formed. -/
theorem align_inv {α : Type} (mode : ScoreMode) (asc : Option (ScoreTable α))
    (a b : List α) : Inv a b (align mode asc a b) := by
  unfold align
  refine foldl_inv (Inv a b) _ _ _ ?_ ?_
  · intro rc p hp
    dsimp only [startState] at hp
    split at hp
    · rename_i h
      subst h
      have hp' : p = ⟨[(0, 0)], mode.good⟩ := by simpa using hp
      subst hp'
      exact ⟨by simp, rfl, rfl, List.chain'_singleton _, by omega, by omega⟩
    · simp at hp
  · intro st x _ hst
    exact stepCell_inv mode asc a b st x hst

/-- C3: every stored path's coordinate sequence starts at the origin and
each consecutive pair of coordinates differs by exactly one of the
deltas (1,0), (1,1), (0,1). -/
theorem C3_path_wellformed {α : Type} (mode : ScoreMode) (asc : Option (ScoreTable α))
    (a b : List α) (rc : ℕ × ℕ) (p : ViterbiPath) (hp : p ∈ align mode asc a b rc) :
    p.get_coordinates.head? = some (0, 0) ∧ List.Chain' stepOk p.get_coordinates := by
  obtain ⟨-, hhead, -, hchain, -, -⟩ := align_inv mode asc a b rc p hp
  exact ⟨hhead, hchain⟩

unseal Rat.add in
/-- C3 witness: the deletion path of aligning `"a"` against `""`. -/
theorem C3_path_wellformed_witness :
    (⟨[(0, 0), (1, 0)], -1⟩ : ViterbiPath).get_coordinates.head? = some (0, 0) ∧
      List.Chain' stepOk (⟨[(0, 0), (1, 0)], -1⟩ : ViterbiPath).get_coordinates :=
  C3_path_wellformed (logMode (-1)) (none : Option (ScoreTable Char)) ['a'] [] (1, 0)
    ⟨[(0, 0), (1, 0)], -1⟩ (by decide)

/-- The A-side and B-side elements consumed along a legal chain from
`(r, c)` to `(i, j)` are the slices `A[r:i]` and `B[c:j]`. -/
theorem chain_consumed {α : Type} (a b : List α) :
    ∀ (L : List (ℕ × ℕ)) (r c i j : ℕ),
      List.Chain' stepOk ((r, c) :: L) →
      ((r, c) :: L).getLast? = some (i, j) →
      i ≤ a.length → j ≤ b.length →
      r ≤ i ∧ c ≤ j ∧
      ((((r, c) :: L).zip L).map fun cc => transitionElem a b cc.1 cc.2).filterMap
          Prod.fst = (a.take i).drop r ∧
      ((((r, c) :: L).zip L).map fun cc => transitionElem a b cc.1 cc.2).filterMap
          Prod.snd = (b.take j).drop c := by
  intro L
  induction L with
  | nil =>
    intro r c i j _ hlast hi hj
    have hij : r = i ∧ c = j := by simpa using hlast
    obtain ⟨rfl, rfl⟩ := hij
    refine ⟨le_refl r, le_refl c, ?_, ?_⟩
    · simp only [List.zip_nil_right, List.map_nil, List.filterMap_nil]
      exact (List.drop_eq_nil_of_le (by simp only [List.length_take] <;> omega)).symm
    · simp only [List.zip_nil_right, List.map_nil, List.filterMap_nil]
      exact (List.drop_eq_nil_of_le (by simp only [List.length_take] <;> omega)).symm
  | cons hd tl ih =>
    intro r c i j hchain hlast hi hj
    obtain ⟨r', c'⟩ := hd
    have hstep : (r' = r + 1 ∧ c' = c) ∨ (r' = r + 1 ∧ c' = c + 1) ∨
        (r' = r ∧ c' = c + 1) := (List.chain'_cons.mp hchain).1
    have hstep' : (r' = r + 1 ∧ c = c') ∨ (r' = r + 1 ∧ c' = c + 1) ∨
        (r = r' ∧ c' = c + 1) := by
      rcases hstep with ⟨h1, h2⟩ | h | ⟨h1, h2⟩
      · exact Or.inl ⟨h1, h2.symm⟩
      · exact Or.inr (Or.inl h)
      · exact Or.inr (Or.inr ⟨h1.symm, h2⟩)
    have hchain' : List.Chain' stepOk ((r', c') :: tl) := (List.chain'_cons.mp hchain).2
    have hlast' : ((r', c') :: tl).getLast? = some (i, j) := by
      rw [← List.getLast?_cons_cons]
      exact hlast
    obtain ⟨hri, hcj, hA, hB⟩ := ih r' c' i j hchain' hlast' hi hj
    rcases hstep' with ⟨rfl, rfl⟩ | ⟨rfl, rfl⟩ | ⟨rfl, rfl⟩
    · -- deletion: row advances, column fixed
      have hra : r < a.length := by omega
      have hfst : (transitionElem a b (r, c) (r + 1, c)).1 = some (a.get ⟨r, hra⟩) := by
        simp only [transitionElem]
        rw [if_pos (by omega : (r : ℕ) ≠ r + 1)]
        exact List.getElem?_eq_getElem hra
      have hsnd : (transitionElem a b (r, c) (r + 1, c)).2 = none := by
        simp [transitionElem]
      refine ⟨by omega, hcj, ?_, ?_⟩
      · rw [List.zip_cons_cons, List.map_cons, List.filterMap_cons_some hfst, hA,
          List.drop_eq_getElem_cons (show r < (a.take i).length by
            simp only [List.length_take] <;> omega)]
        congr 1
        exact (List.getElem_take a).symm
      · rw [List.zip_cons_cons, List.map_cons, List.filterMap_cons_none hsnd]
        exact hB
    · -- diagonal: both advance
      have hra : r < a.length := by omega
      have hcb : c < b.length := by omega
      have hfst : (transitionElem a b (r, c) (r + 1, c + 1)).1 = some (a.get ⟨r, hra⟩) := by
        simp only [transitionElem]
        rw [if_pos (by omega : (r : ℕ) ≠ r + 1)]
        exact List.getElem?_eq_getElem hra
      have hsnd : (transitionElem a b (r, c) (r + 1, c + 1)).2 = some (b.get ⟨c, hcb⟩) := by
        simp only [transitionElem]
        rw [if_pos (by omega : (c : ℕ) ≠ c + 1)]
        exact List.getElem?_eq_getElem hcb
      refine ⟨by omega, by omega, ?_, ?_⟩
      · rw [List.zip_cons_cons, List.map_cons, List.filterMap_cons_some hfst, hA,
          List.drop_eq_getElem_cons (show r < (a.take i).length by
            simp only [List.length_take] <;> omega)]
        congr 1
        exact (List.getElem_take a).symm
      · rw [List.zip_cons_cons, List.map_cons, List.filterMap_cons_some hsnd, hB,
          List.drop_eq_getElem_cons (show c < (b.take j).length by
            simp only [List.length_take] <;> omega)]
        congr 1
        exact (List.getElem_take b).symm
    · -- insertion: row fixed, column advances
      have hcb : c < b.length := by omega
      have hfst : (transitionElem a b (r, c) (r, c + 1)).1 = none := by
        simp [transitionElem]
      have hsnd : (transitionElem a b (r, c) (r, c + 1)).2 = some (b.get ⟨c, hcb⟩) := by
        simp only [transitionElem]
        rw [if_pos (by omega : (c : ℕ) ≠ c + 1)]
        exact List.getElem?_eq_getElem hcb
      refine ⟨hri, by omega, ?_, ?_⟩
      · rw [List.zip_cons_cons, List.map_cons, List.filterMap_cons_none hfst]
        exact hA
      · rw [List.zip_cons_cons, List.map_cons, List.filterMap_cons_some hsnd, hB,
          List.drop_eq_getElem_cons (show c < (b.take j).length by
            simp only [List.length_take] <;> omega)]
        congr 1
        exact (List.getElem_take b).symm

/-- C5: under table-driven scoring a missing key pair silently abandons
that one path extension — the sweep state is returned unchanged, with
nothing appended and no error — and consequently aligning `A = "a"`
against `B = "ab"` with a table defining only the pair `("a", "a")`
leaves the terminal cell with zero paths. -/
theorem C5_missing_key_skips {α : Type} (mode : ScoreMode) (t : ScoreTable α)
    (a b : List α) (i j : ℕ) (p : ViterbiPath) (st : PathState) (m : Move)
    (h : t (moveKeys a b m i j).1 (moveKeys a b m i j).2 = none) :
    applyMove mode (some t) a b i j p st m = st ∧
    ∀ badLog : ℚ, aligner_all_paths (logMode badLog) (some c5Table) ['a'] ['a', 'b'] = [] := by
  constructor
  · unfold applyMove
    cases htgt : targetOf a b m i j with
    | none => rfl
    | some tgt =>
      have hsc : moveScore mode (some t) a b m i j = none := h
      rw [hsc]
  · intro badLog
    rfl

/-- C5 witness: the insertion move out of cell `(0, 1)` is skipped, and
the terminal cell of the concrete pruning scenario is empty. -/
theorem C5_missing_key_skips_witness :
    applyMove (logMode (-1)) (some c5Table) ['a'] ['a', 'b'] 0 1 ⟨[(0, 0), (0, 1)], 1⟩
        (startState (logMode (-1))) Move.insert = startState (logMode (-1)) ∧
    aligner_all_paths (logMode (-1)) (some c5Table) ['a'] ['a', 'b'] = [] :=
  ⟨(C5_missing_key_skips (logMode (-1)) c5Table ['a'] ['a', 'b'] 0 1 ⟨[(0, 0), (0, 1)], 1⟩
      (startState (logMode (-1))) Move.insert (by decide)).1,
   (C5_missing_key_skips (logMode (-1)) c5Table ['a'] ['a', 'b'] 0 1 ⟨[(0, 0), (0, 1)], 1⟩
      (startState (logMode (-1))) Move.insert (by decide)).2 (-1)⟩

/-- Two left folds over pointwise related lists from related states end
in related states. -/
theorem foldl_rel {σ₁ σ₂ τ₁ τ₂ : Type} (R : σ₁ → σ₂ → Prop) (Q : τ₁ → τ₂ → Prop)
    (f : σ₁ → τ₁ → σ₁) (g : σ₂ → τ₂ → σ₂) :
    ∀ {l₁ : List τ₁} {l₂ : List τ₂}, List.Forall₂ Q l₁ l₂ → ∀ s₁ s₂, R s₁ s₂ →
      (∀ s₁' s₂' x₁ x₂, Q x₁ x₂ → R s₁' s₂' → R (f s₁' x₁) (g s₂' x₂)) →
      R (l₁.foldl f s₁) (l₂.foldl g s₂) := by
  intro l₁ l₂ h
  induction h with
  | nil => intro s₁ s₂ hR _; exact hR
  | cons hq _ ih => intro s₁ s₂ hR hstep; exact ih _ _ (hstep _ _ _ _ hq hR) hstep

/-- Zipping a snoc with its tail appends the final transition. -/
theorem zipTail_concat {τ : Type} : ∀ (L : List τ) (x lc : τ), L.getLast? = some lc →
    (L ++ [x]).zip ((L ++ [x]).tail) = L.zip L.tail ++ [(lc, x)] := by
  intro L
  induction L with
  | nil => intro x lc h; simp at h
  | cons y t ih =>
    intro x lc h
    cases t with
    | nil =>
      have hy : y = lc := by simpa using h
      subst hy
      simp
    | cons z t' =>
      have h' : (z :: t').getLast? = some lc := by
        rw [← List.getLast?_cons_cons]; exact h
      have hrec := ih x lc h'
      simp only [List.cons_append, List.tail_cons, List.zip_cons_cons] at hrec ⊢
      simp [hrec]

/-- Appending one more cell adds one indel transition when the new step
keeps the row or the column, and none otherwise. -/
theorem indelCount_concat (L : List (ℕ × ℕ)) (lc x : ℕ × ℕ) (h : L.getLast? = some lc) :
    indelCount (L ++ [x]) = indelCount L + (if lc.1 = x.1 ∨ lc.2 = x.2 then 1 else 0) := by
  unfold indelCount
  rw [zipTail_concat L x lc h, List.countP_append]
  simp [List.countP_cons]

/-- Pointwise equal cell sequences give equal cell-sequence images. -/
theorem forall₂_cells_map {l₁ l₂ : List ViterbiPath}
    (h : List.Forall₂ (fun p p' => p.cells = p'.cells) l₁ l₂) :
    l₁.map ViterbiPath.cells = l₂.map ViterbiPath.cells := by
  induction h with
  | nil => rfl
  | cons h₁ _ ih => simp only [List.map_cons, ih]; rw [h₁]

/-- Under default scoring the cell sequences deposited by the sweep do
not depend on the value of the bad score. -/
theorem align_cells_mode_indep {α : Type} (x y : ℚ) (a b : List α) :
    CellsRel (align (logMode x) (none : Option (ScoreTable α)) a b)
      (align (logMode y) (none : Option (ScoreTable α)) a b) := by
  unfold align
  refine foldl_rel CellsRel Eq _ _
    (List.forall₂_same.mpr fun z _ => rfl) _ _ ?_ ?_
  · intro rc
    dsimp only [startState]
    split
    · exact List.forall₂_cons.mpr ⟨rfl, List.Forall₂.nil⟩
    · exact List.Forall₂.nil
  · intro st₁ st₂ rc₁ rc₂ hq hR
    subst hq
    unfold stepCell
    refine foldl_rel CellsRel (fun p p' : ViterbiPath => p.cells = p'.cells) _ _
      (hR rc₁) st₁ st₂ hR ?_
    intro s₁ s₂ p p' hpq hR'
    refine foldl_rel CellsRel Eq _ _
      (List.forall₂_same.mpr fun z _ => rfl) s₁ s₂ hR' ?_
    intro s₁' s₂' m m' hm hR''
    subst hm
    unfold applyMove
    cases htgt : targetOf a b m rc₁.1 rc₁.2 with
    | none => exact hR''
    | some tgt =>
      simp only [moveScore]
      intro rc
      dsimp only
      by_cases hrc : rc = tgt
      · rw [if_pos hrc, if_pos hrc]
        refine List.rel_append (hR'' rc) ?_
        refine List.forall₂_cons.mpr ⟨?_, List.Forall₂.nil⟩
        simp [hpq]
      · rw [if_neg hrc, if_neg hrc]
        exact hR'' rc

/-- The seeded start state satisfies the sweep invariant. -/
theorem startState_inv {α : Type} (mode : ScoreMode) (a b : List α) :
    Inv a b (startState mode) := by
  intro rc p hp
  dsimp only [startState] at hp
  split at hp
  · rename_i h
    subst h
    have hp' : p = ⟨[(0, 0)], mode.good⟩ := by simpa using hp
    subst hp'
    exact ⟨by simp, rfl, rfl, List.chain'_singleton _, by omega, by omega⟩
  · simp at hp

/-- With default scoring in log mode, the score of one move is `0` for
the diagonal and the bad score for the two indel moves. -/
theorem moveScore_default {α : Type} (badLog : ℚ) (a b : List α) (m : Move) (i j : ℕ)
    (s : ℚ) (h : moveScore (logMode badLog) (none : Option (ScoreTable α)) a b m i j = some s) :
    s = 0 ∨ s = badLog := by
  cases m with
  | delete => simp [moveScore, logMode] at h; exact Or.inr (by linarith)
  | diag => simp [moveScore, logMode] at h; exact Or.inl (by linarith)
  | insert => simp [moveScore, logMode] at h; exact Or.inr (by linarith)

/-- Under default scoring in log mode every stored path's score is the
bad score times its number of indel transitions. -/
theorem align_default_score_shape {α : Type} (badLog : ℚ) (a b : List α) (rc : ℕ × ℕ)
    (q : ViterbiPath) (hq : q ∈ align (logMode badLog) (none : Option (ScoreTable α)) a b rc) :
    q.score = badLog * indelCount q.cells := by
  unfold align at hq
  refine (foldl_inv (fun st : PathState => Inv a b st ∧
      ∀ rc' q', q' ∈ st rc' → q'.score = badLog * indelCount q'.cells) _ _ _
    ⟨startState_inv (logMode badLog) a b, ?_⟩ ?_).2 rc q hq
  · intro rc' q' hq'
    dsimp only [startState] at hq'
    split at hq'
    · have hq'' : q' = ⟨[(0, 0)], (logMode badLog).good⟩ := by simpa using hq'
      subst hq''
      simp [logMode, indelCount]
    · simp at hq'
  · intro st x _ hst
    refine ⟨stepCell_inv (logMode badLog) none a b st x hst.1, ?_⟩
    unfold stepCell
    refine foldl_inv (fun st' : PathState =>
        ∀ rc' q', q' ∈ st' rc' → q'.score = badLog * indelCount q'.cells) _ _ _ hst.2 ?_
    intro s' p hp hs'
    have hwf : WF a b p x := hst.1 x p hp
    have hshape : p.score = badLog * indelCount p.cells := hst.2 x p hp
    refine foldl_inv (fun st' : PathState =>
        ∀ rc' q', q' ∈ st' rc' → q'.score = badLog * indelCount q'.cells) _ _ _ hs' ?_
    intro s'' m _ hs''
    unfold applyMove
    cases htgt : targetOf a b m x.1 x.2 with
    | none => exact hs''
    | some tgt =>
      cases hsc : moveScore (logMode badLog) (none : Option (ScoreTable α)) a b m x.1 x.2 with
      | none => exact hs''
      | some sc =>
        intro rc' q' hq'
        dsimp only at hq'
        by_cases hrc : rc' = tgt
        · rw [if_pos hrc] at hq'
          rcases List.mem_append.mp hq' with h1 | h2
          · exact hs'' rc' q' h1
          · have hq'' : q' = ⟨p.cells ++ [tgt], (logMode badLog).comb p.score sc⟩ := by
              simpa using h2
            subst hq''
            obtain ⟨-, -, hlast, -, -, -⟩ := hwf
            have hx : p.cells.getLast? = some (x.1, x.2) := by simpa using hlast
            have hcount := indelCount_concat p.cells (x.1, x.2) tgt hx
            cases m with
            | delete =>
              have htgt' : tgt = (x.1 + 1, x.2) := by
                simp only [targetOf] at htgt
                split at htgt <;> simp_all
              have hsc' : sc = badLog := by
                simp [moveScore, logMode] at hsc; linarith
              subst htgt'
              subst hsc'
              have hone : (if ((x.1, x.2).1 = (x.1 + 1, x.2).1 ∨ (x.1, x.2).2 = (x.1 + 1, x.2).2)
                  then (1 : ℕ) else 0) = 1 := by simp
              rw [hcount, hone, hshape]
              simp only [logMode]
              push_cast
              ring
            | diag =>
              have htgt' : tgt = (x.1 + 1, x.2 + 1) := by
                simp only [targetOf] at htgt
                split at htgt <;> simp_all
              have hsc' : sc = 0 := by
                simp [moveScore, logMode] at hsc; linarith
              subst htgt'
              subst hsc'
              have hone : (if ((x.1, x.2).1 = (x.1 + 1, x.2 + 1).1 ∨ (x.1, x.2).2 = (x.1 + 1, x.2 + 1).2)
                  then (1 : ℕ) else 0) = 0 := by simp
              rw [hcount, hone, hshape]
              simp only [logMode]
              push_cast
              ring
            | insert =>
              have htgt' : tgt = (x.1, x.2 + 1) := by
                simp only [targetOf] at htgt
                split at htgt <;> simp_all
              have hsc' : sc = badLog := by
                simp [moveScore, logMode] at hsc; linarith
              subst htgt'
              subst hsc'
              have hone : (if ((x.1, x.2).1 = (x.1, x.2 + 1).1 ∨ (x.1, x.2).2 = (x.1, x.2 + 1).2)
                  then (1 : ℕ) else 0) = 1 := by simp
              rw [hcount, hone, hshape]
              simp only [logMode]
              push_cast
              ring
        · rw [if_neg hrc] at hq'
          exact hs'' rc' q' hq'


/-- C7: aligning `"ab"` with `"ab"` under default scoring with
`scores_are_costs = False` yields the pure-diagonal path among
`get_best_paths()`, and its alignment is exactly
`[("a","a"), ("b","b")]`; diagonal moves are strictly preferred because
the bad (indel) score is negative in log mode. -/
theorem C7_default_prefers_diagonal (badLog : ℚ) (hb : badLog < 0) :
    (⟨[(0, 0), (1, 1), (2, 2)], 0⟩ : ViterbiPath) ∈
      aligner_best_paths (logMode badLog) (none : Option (ScoreTable Char)) ['a', 'b']
        ['a', 'b'] false ∧
    get_elements ['a', 'b'] ['a', 'b'] ⟨[(0, 0), (1, 1), (2, 2)], 0⟩ =
      [(some 'a', some 'a'), (some 'b', some 'b')] := by
  constructor
  · unfold aligner_best_paths
    rw [mem_get_best_paths]
    have hmap : (align (logMode badLog) (none : Option (ScoreTable Char)) ['a', 'b'] ['a', 'b']
        (lastCell ['a', 'b'] ['a', 'b'])).map ViterbiPath.cells =
        (align (logMode (-1)) (none : Option (ScoreTable Char)) ['a', 'b'] ['a', 'b']
        (lastCell ['a', 'b'] ['a', 'b'])).map ViterbiPath.cells :=
      forall₂_cells_map (align_cells_mode_indep badLog (-1) ['a', 'b'] ['a', 'b'] _)
    have hdmem : [(0, 0), (1, 1), (2, 2)] ∈
        (align (logMode badLog) (none : Option (ScoreTable Char)) ['a', 'b'] ['a', 'b']
          (lastCell ['a', 'b'] ['a', 'b'])).map ViterbiPath.cells := by
      rw [hmap]
      decide
    obtain ⟨p, hpmem, hpcells⟩ := List.mem_map.mp hdmem
    have hshape := align_default_score_shape badLog ['a', 'b'] ['a', 'b'] _ p hpmem
    have hscore : p.score = 0 := by
      rw [hshape, hpcells]
      have h0 : indelCount [(0, 0), (1, 1), (2, 2)] = 0 := rfl
      rw [h0]
      simp
    have hp' : p = ⟨[(0, 0), (1, 1), (2, 2)], 0⟩ := by
      obtain ⟨pc, ps⟩ := p
      simp only [ViterbiPath.cells] at hpcells
      simp only [ViterbiPath.score] at hscore
      simp [hpcells, hscore]
    rw [← hp']
    refine ⟨hpmem, ?_⟩
    intro q hq
    have hqs := align_default_score_shape badLog ['a', 'b'] ['a', 'b'] _ q hq
    have hqle : q.score ≤ 0 := by
      rw [hqs]
      have hcast : (0 : ℚ) ≤ (indelCount q.cells : ℚ) := Nat.cast_nonneg _
      nlinarith
    simp only [pathLe, hp', Bool.false_eq_true, if_false, decide_eq_true_eq]
    exact hqle
  · decide

/-- C7 witness: the same membership and alignment at the concrete stand-in
bad score `-1`. -/
theorem C7_default_prefers_diagonal_witness :
    (⟨[(0, 0), (1, 1), (2, 2)], 0⟩ : ViterbiPath) ∈
      aligner_best_paths (logMode (-1)) (none : Option (ScoreTable Char)) ['a', 'b']
        ['a', 'b'] false ∧
    get_elements ['a', 'b'] ['a', 'b'] ⟨[(0, 0), (1, 1), (2, 2)], 0⟩ =
      [(some 'a', some 'a'), (some 'b', some 'b')] :=
  C7_default_prefers_diagonal (-1) (by decide)

/-- C10: a path stored at cell `(i, j)` after the sweep has consumed, in
order, exactly the prefix `A[0:i]` on its A side and exactly the prefix
`B[0:j]` on its B side. -/
theorem C10_consumed_prefixes {α : Type} (mode : ScoreMode) (asc : Option (ScoreTable α))
    (a b : List α) (i j : ℕ) (p : ViterbiPath) (hp : p ∈ align mode asc a b (i, j)) :
    (get_elements a b p).filterMap Prod.fst = a.take i ∧
    (get_elements a b p).filterMap Prod.snd = b.take j := by
  obtain ⟨hne, hhead, hlast, hchain, hi, hj⟩ := align_inv mode asc a b (i, j) p hp
  cases hcells : p.cells with
  | nil => exact absurd hcells hne
  | cons c0 tl =>
    rw [hcells] at hhead hlast hchain
    have hc0 : c0 = (0, 0) := by simpa using hhead
    subst hc0
    obtain ⟨-, -, hA, hB⟩ := chain_consumed a b tl 0 0 i j hchain hlast hi hj
    unfold get_elements
    rw [hcells]
    constructor
    · simpa using hA
    · simpa using hB

unseal Rat.add in
/-- C10 witness: the deletion path of aligning `"a"` against `""`
consumes all of `A` and nothing of `B`. -/
theorem C10_consumed_prefixes_witness :
    (get_elements ['a'] ([] : List Char) ⟨[(0, 0), (1, 0)], -1⟩).filterMap Prod.fst = ['a'] ∧
    (get_elements ['a'] ([] : List Char) ⟨[(0, 0), (1, 0)], -1⟩).filterMap Prod.snd = [] :=
  C10_consumed_prefixes (logMode (-1)) (none : Option (ScoreTable Char)) ['a'] [] 1 0
    ⟨[(0, 0), (1, 0)], -1⟩ (by decide)

end Viterbi
